import Mathlib

/-!
Verification of the embedding retrieval engine of this repository against its
specification.  The JavaScript sources are shallowly embedded: `chunkText`
(src/embed.js), the vector-store operations `load`, `upsert`,
`similaritySearch`, `getAvailableManuals`, `verifyVectorStore`
(src/utils/vectorStore.js, first — authoritative — variant), and the
most-relevant-manual attribution loop of the chat route (src/app.js).

Numbers are modelled exactly: vector components are rationals; the cosine
similarity value `dot/(sqrt na * sqrt nb)` is represented by its sign together
with its square (`dot^2/(na*nb)`), both rationals, since every comparison the
code performs on scores is decidable on that representation and agrees with
the real-number value (bridging lemmas below relate the representation to the
real-valued cosine).  JavaScript `NaN` (division `0/0`, or an out-of-range
index access feeding arithmetic) is modelled by `none`.
-/

/-! ## Chunker (src/embed.js) -/

/-- Word-window size: `const CHUNK_WORDS = 500` in src/embed.js. -/
def CHUNK_WORDS : ℕ := 500

/-- Window overlap: `const OVERLAP = 50` in src/embed.js. -/
def OVERLAP : ℕ := 50

/-- ECMAScript whitespace class (the characters matched by the regexp `\s`):
space, tab, line feed, vertical tab, form feed, carriage return, NBSP and the
Unicode line/paragraph separators and BOM. -/
def jsIsWs (c : Char) : Bool :=
  c = ' ' || c = '\t' || c = '\n' || c = '\x0b' || c = '\x0c' || c = '\r' ||
  c = '\xa0' || c = Char.ofNat 0x2028 || c = Char.ofNat 0x2029 ||
  c = Char.ofNat 0xfeff

/-- Helper for `jsSplitWs`.  Walks the character list accumulating the current
token (in reverse); a whitespace character ends the current token and the
whole maximal whitespace run is consumed (`dropWhile`), exactly the behaviour
of `String.prototype.split` with the regexp argument matching one-or-more
whitespace.  The `fuel` argument only bounds the recursion and is always
called with at least the length of the character list, so the fuel-exhausted
branch is never taken (`splitWsAux_fuel_irrel` below). -/
def splitWsAux : ℕ → List Char → List Char → List String
  | _, [], acc => [String.mk acc.reverse]
  | 0, _ :: _, acc => [String.mk acc.reverse]
  | fuel + 1, c :: rest, acc =>
      if jsIsWs c then
        String.mk acc.reverse :: splitWsAux fuel (rest.dropWhile jsIsWs) []
      else
        splitWsAux fuel rest (c :: acc)

/-- JavaScript `txt.split(/\s+/)` from `chunkText` in src/embed.js.  Note the
JavaScript quirks this reproduces: the empty string splits to `[""]`, and
leading (resp. trailing) whitespace contributes a leading (resp. trailing)
empty token. -/
def jsSplitWs (s : String) : List String :=
  splitWsAux s.toList.length s.toList []

/-- The chunking loop of `chunkText` in src/embed.js:
`for (let i = 0; i < words.length; i += CHUNK_WORDS - OVERLAP)` pushing
`words.slice(i, i + CHUNK_WORDS)`.  Advancing `i` by the stride is rendered as
recursing on `drop (CHUNK_WORDS - OVERLAP)`; the loop guard `i < words.length`
is the non-emptiness of the remaining list.  `fuel` bounds the recursion and
every use supplies at least the list length, which always suffices
(`windowsAux_fuel_irrel` below). -/
def windowsAux : ℕ → List String → List (List String)
  | _, [] => []
  | 0, _ :: _ => []
  | fuel + 1, w :: ws =>
      (w :: ws).take CHUNK_WORDS ::
        windowsAux fuel ((w :: ws).drop (CHUNK_WORDS - OVERLAP))

/-- `chunkText` from src/embed.js: split on whitespace, slide a 500-word
window with stride 450, join each window with single spaces. -/
def chunkText (txt : String) : List String :=
  let words := jsSplitWs txt
  (windowsAux words.length words).map (fun b => String.intercalate " " b)

/-- The chunk count that `ingestPDF` (src/embed.js) reports to its caller:
`return { ..., chunks: pieces.length, ... }` where `pieces = chunkText(text)`.
The surrounding I/O (PDF parsing, embedding calls, file copies) does not
affect this count. -/
def ingestReportedChunkCount (text : String) : ℕ :=
  (chunkText text).length

/-- Concrete text of 451 whitespace-separated tokens, used to separate the
specified chunk-count formula from the implemented one. -/
def t451 : String := String.intercalate " " (List.replicate 451 "a")

/-- Number of token indices below `n` lying in both the token window of chunk
`k` (indices `[450k, 450k+500)`) and that of chunk `k+1`. -/
def sharedTokens (n k : ℕ) : ℕ :=
  ((Finset.range n).filter fun j =>
    (450 * k ≤ j ∧ j < 450 * k + 500) ∧
    (450 * (k + 1) ≤ j ∧ j < 450 * (k + 1) + 500)).card

/-! ## Vector store data model (src/utils/vectorStore.js, first variant)

The persisted structure is `{ manuals: { manualId: { embeddings, info } } }`.
A JavaScript object with string keys, mutated only by whole-key assignment and
iterated with `for..in`, is modelled as an association list in insertion
order.  `cache.manuals` may be absent when the persisted JSON lacks the
`manuals` field, hence the `Option`. -/

structure Chunk where
  id : String
  text : String
  vector : List ℚ
deriving DecidableEq

structure ManualInfo where
  filename : String
  title : String
  author : String
  pages : ℕ
  createdAt : String
  path : String
deriving DecidableEq

structure Manual where
  embeddings : List Chunk
  info : ManualInfo
deriving DecidableEq

abbrev ManualMap := List (String × Manual)

structure Cache where
  manuals : Option ManualMap
deriving DecidableEq

/-- Reading `cache.manuals[k]`. -/
def getManual (ms : ManualMap) (k : String) : Option Manual :=
  (ms.find? (fun p => p.1 == k)).map (fun p => p.2)

/-- Assignment `cache.manuals[k] = v` on a JavaScript object: an existing key
keeps its position in insertion order, a fresh key is appended. -/
def setManual (ms : ManualMap) (k : String) (v : Manual) : ManualMap :=
  if ms.any (fun p => p.1 == k) then
    ms.map (fun p => if p.1 == k then (k, v) else p)
  else ms ++ [(k, v)]

/-- All chunks stored anywhere in the map (used to express that a store
contains at least one chunk). -/
def storeChunks (ms : ManualMap) : List Chunk :=
  ms.flatMap (fun p => p.2.embeddings)

/-- Disk state seen by `load()`: `none` = file absent (`readFile` throws),
`some none` = file present but `JSON.parse` throws, `some (some c)` = file
parses to the cache shape `c`.  (JSON documents that parse to something other
than an object of the store shape are outside the modelled state space.) -/
abbrev DiskState := Option (Option Cache)

/-- The `catch` branch of `load()`: `cache = { manuals: {} }`. -/
def emptyCache : Cache := ⟨some []⟩

/-- `load()` from src/utils/vectorStore.js as a pure step: given the current
in-memory cache (`none` = not loaded) and the disk state, return the loaded
value and the new in-memory cache.  `if (cache) return cache` short-circuits
without touching the disk; otherwise the file is read and parsed, any failure
yielding the empty store. -/
def loadStep (cache : Option Cache) (disk : DiskState) : Cache × Option Cache :=
  match cache with
  | some c => (c, some c)
  | none =>
      let c := match disk with
        | some (some c) => c
        | _ => emptyCache
      (c, some c)

/-- `upsert(embeddings, manualId, manualInfo)` from src/utils/vectorStore.js,
acting on a loaded cache: ensure `manuals` exists, then wholesale-assign the
document at `manualId`.  (The surrounding `await load()` / `await save()` are
the lazy load and full-snapshot persistence; the store content transformation
is this function.) -/
def upsertManual (c : Cache) (embeddings : List Chunk) (manualId : String)
    (manualInfo : ManualInfo) : Cache :=
  let ms := c.manuals.getD []
  ⟨some (setManual ms manualId ⟨embeddings, manualInfo⟩)⟩

/-! ## Similarity scoring

`cosine(a, b)` in the source loops `i` over `a.length`, accumulating
`dot += a[i]*b[i]`, `na += a[i]*a[i]`, `nb += b[i]*b[i]`, and returns
`dot / (sqrt(na) * sqrt(nb))`.  When `b` is shorter than `a`, `b[i]` is
`undefined` and the result is `NaN` (modelled `none`); when `b` is at least as
long, only the first `a.length` components of `b` participate.  A zero `na` or
`nb` forces `dot = 0` and the result `0/0 = NaN`.  Otherwise the value is
`dot/(sqrt na * sqrt nb)`, represented exactly by its sign and its square
`dot^2/(na*nb)`; `scoreReal` and the bridging lemmas below tie the
representation to the real value. -/

def dotQ (a b : List ℚ) : ℚ := ((a.zip b).map (fun p => p.1 * p.2)).sum

def cosineScore (a b : List ℚ) : Option (Int × ℚ) :=
  if b.length < a.length then none
  else
    let bt := b.take a.length
    let dot := dotQ a bt
    let na := dotQ a a
    let nb := dotQ bt bt
    if na = 0 ∨ nb = 0 then none
    else some (if 0 < dot then 1 else if dot < 0 then -1 else 0,
      dot ^ 2 / (na * nb))

/-- Strict comparison of two represented score values, as the real numbers
they denote: compare signs first, then the squares (reversed for negative
sign).  A `NaN` (`none`) compares false against everything, matching
JavaScript `NaN > x` being false and the ECMAScript rule that a comparator
returning `NaN` is treated as `0`. -/
def scoreGtB : Option (Int × ℚ) → Option (Int × ℚ) → Bool
  | some (s, q), some (t, r) =>
      if t < s then true
      else if s = t then
        if 0 < s then decide (r < q)
        else if s < 0 then decide (q < r)
        else false
      else false
  | some _, none => false
  | none, _ => false

/-- The relevance threshold `0.4` of the source, as a represented score value:
`0.4 = sqrt(4/25)` with positive sign. -/
def thr04 : Option (Int × ℚ) := some (1, 4 / 25)

/-- Well-formed search state: the query self-dot is nonzero and every stored
chunk vector has the query's dimension and nonzero self-dot.  The spec calls
dimension mismatch a caller contract violation that cannot occur in
well-formed operation; under this predicate no score is `NaN`. -/
def WFStore (q : List ℚ) (ms : ManualMap) : Prop :=
  dotQ q q ≠ 0 ∧
  ∀ p ∈ ms, ∀ c ∈ p.2.embeddings,
    c.vector.length = q.length ∧ dotQ c.vector c.vector ≠ 0

/-- Canonical representation produced by `cosineScore`: zero sign comes with
zero square, nonzero sign with positive square. -/
def ScoreCanon : Option (Int × ℚ) → Prop
  | some (s, q) => (s = 0 ∧ q = 0) ∨ (s = 1 ∧ 0 < q) ∨ (s = -1 ∧ 0 < q)
  | none => True

/-- The real number a represented score denotes. -/
noncomputable def scoreReal : Option (Int × ℚ) → ℝ
  | some (s, q) => (s : ℝ) * Real.sqrt (q : ℝ)
  | none => 0

/-- The real-valued reading of the source's `cosine(a, b)` (defined when no
`NaN` arises, i.e. `a` at most as long as `b` and both self-dots nonzero). -/
noncomputable def cosineR (a b : List ℚ) : ℝ :=
  ((dotQ a (b.take a.length) : ℚ) : ℝ) /
    (Real.sqrt ((dotQ a a : ℚ) : ℝ) *
      Real.sqrt ((dotQ (b.take a.length) (b.take a.length) : ℚ) : ℝ))

/-! ## Similarity search (src/utils/vectorStore.js, first variant) -/

structure SearchR where
  text : String
  score : Option (Int × ℚ)
  manualId : String
  manualInfo : ManualInfo
  chunkId : String
deriving DecidableEq

/-- One pushed result object.  `chunkId` is `obj.id || chunk-<index>`:
JavaScript `||` falls through on the empty string; `embeddings.indexOf(obj)`
is the chunk's position (objects deserialized from JSON are reference-unique,
so `indexOf` of the scanned element is its own index). -/
def resultOf (q : List ℚ) (manualId : String) (info : ManualInfo)
    (idx : ℕ) (c : Chunk) : SearchR :=
  { text := c.text
    score := cosineScore q c.vector
    manualId := manualId
    manualInfo := info
    chunkId := if c.id = "" then "chunk-" ++ toString idx else c.id }

/-- The fallback scan: every chunk of every manual, scored, in scan order. -/
def candidatesAll (q : List ℚ) (ms : ManualMap) : List SearchR :=
  ms.flatMap (fun p =>
    (p.2.embeddings.enum).map (fun ic => resultOf q p.1 p.2.info ic.1 ic.2))

/-- The first scan: only chunks whose score passes `score > 0.4` are pushed,
in scan order. -/
def candidatesFiltered (q : List ℚ) (ms : ManualMap) : List SearchR :=
  ms.flatMap (fun p =>
    (p.2.embeddings.enum).filterMap (fun ic =>
      let r := resultOf q p.1 p.2.info ic.1 ic.2
      if scoreGtB r.score thr04 then some r else none))

/-- Stable insertion: `x` goes in front of the first element it strictly
beats, hence after every element of equal score. -/
def insertDesc (x : SearchR) : List SearchR → List SearchR
  | [] => [x]
  | y :: ys =>
      if scoreGtB x.score y.score then x :: y :: ys else y :: insertDesc x ys

/-- `allResults.sort((a, b) => b.score - a.score)`: ECMAScript guarantees a
stable sort, and on score values that form a total preorder (always the case
for the exact represented values) every stable sort computes the same list;
insertion sort is used as that canonical stable sort. -/
def sortDesc (l : List SearchR) : List SearchR :=
  l.foldl (fun acc x => insertDesc x acc) []

/-- `similaritySearch(queryVec, topK)` from src/utils/vectorStore.js (the
source defaults `topK` to 4; callers here pass it explicitly).  Empty or
absent `manuals` returns `[]`; otherwise chunks passing the `> 0.4` threshold
are collected, the full unfiltered scan is used instead if none passed, and
the survivors are sorted by descending score and truncated to `topK`. -/
def similaritySearch (q : List ℚ) (c : Cache) (topK : ℕ) : List SearchR :=
  match c.manuals with
  | none => []
  | some ms =>
      if ms.length = 0 then []
      else
        let passed := candidatesFiltered q ms
        let allResults := if passed.length = 0 then candidatesAll q ms
          else passed
        (sortDesc allResults).take topK

/-! ## Catalog and verification views (src/utils/vectorStore.js) -/

structure ManualSummary where
  id : String
  info : ManualInfo
  chunks : ℕ
deriving DecidableEq

/-- `getAvailableManuals()`: id, info and per-document chunk count for every
stored manual. -/
def getAvailableManuals (c : Cache) : List ManualSummary :=
  match c.manuals with
  | none => []
  | some ms => ms.map (fun p => ⟨p.1, p.2.info, p.2.embeddings.length⟩)

/-- `verifyVectorStore()`: the flattened list of every stored chunk, built by
repeated `concat` over the manuals in scan order. -/
def verifyVectorStore (c : Cache) : List Chunk :=
  match c.manuals with
  | none => []
  | some ms => ms.foldl (fun acc p => acc ++ p.2.embeddings) []

/-! ## Most-relevant-manual attribution (src/app.js, chat route)

The loop counts, per manual id, how many of the retrieved results belong to
it, and replaces the current best whenever the running count strictly exceeds
the best count so far.  `manualCounts` is a JavaScript object used as a map,
modelled as a function. -/

structure TopManual where
  id : String
  info : ManualInfo
  chunkIds : List String
deriving DecidableEq

structure AttribState where
  counts : String → ℕ
  top : Option TopManual
  topCount : ℕ

def attribStep (contextResults : List SearchR) (st : AttribState)
    (r : SearchR) : AttribState :=
  let c := st.counts r.manualId + 1
  let counts := fun id => if id = r.manualId then c else st.counts id
  if st.topCount < c then
    { counts := counts
      top := some
        { id := r.manualId
          info := r.manualInfo
          chunkIds := (contextResults.filter
              (fun x => x.manualId == r.manualId)).map
            (fun x => if x.chunkId = "" then "sin-id" else x.chunkId) }
      topCount := c }
  else
    { counts := counts, top := st.top, topCount := st.topCount }

def mostRelevantManual (contextResults : List SearchR) : Option TopManual :=
  (contextResults.foldl (attribStep contextResults)
    ⟨fun _ => 0, none, 0⟩).top

/-- Number of results in `rs` attributed to manual `id` (the quantity the
attribution loop counts into `manualCounts[id]`). -/
def idCount (rs : List SearchR) (id : String) : ℕ :=
  (rs.map (fun r => r.manualId)).count id

/-! ## Concrete fixtures used by counterexamples and witnesses -/

def dummyInfo : ManualInfo :=
  ⟨"m.pdf", "titulo", "autor", 1, "2025-01-01", "/manuals/m.pdf"⟩

def resA : SearchR := ⟨"ta", some (0, 0), "A", dummyInfo, "chunk-0"⟩

def resB : SearchR := ⟨"tb", some (0, 0), "B", dummyInfo, "chunk-1"⟩

/-- A store holding one chunk whose vector has dimension 3. -/
def mismatchCache : Cache :=
  ⟨some [("m1", ⟨[⟨"chunk-0", "texto", [1, 0, 0]⟩], dummyInfo⟩)]⟩

/-- A well-formed store for the query `[1, 0]`: three two-dimensional chunks
with nonzero self-dot, spread over two manuals, giving cosine scores
1, 0 and -1 against the query. -/
def wfCache : Cache :=
  ⟨some
    [("m1", ⟨[⟨"chunk-0", "uno", [1, 0]⟩, ⟨"chunk-1", "dos", [0, 1]⟩],
      dummyInfo⟩),
     ("m2", ⟨[⟨"chunk-0", "tres", [-1, 0]⟩], dummyInfo⟩)]⟩

/-! ## Theorems -/

theorem splitWsAux_fuel_irrel :
    ∀ (f g : ℕ) (cs acc : List Char), cs.length ≤ f → cs.length ≤ g →
      splitWsAux f cs acc = splitWsAux g cs acc := by
  intro f
  induction f with
  | zero =>
      intro g cs acc hf _
      have : cs = [] := List.eq_nil_of_length_eq_zero (Nat.le_zero.mp hf)
      subst this
      cases g <;> rfl
  | succ f ih =>
      intro g cs acc hf hg
      cases cs with
      | nil => cases g <;> rfl
      | cons c rest =>
          cases g with
          | zero => exact absurd hg (by simp)
          | succ g =>
              have hd : (rest.dropWhile jsIsWs).length ≤ rest.length :=
                List.Sublist.length_le (List.dropWhile_sublist _)
              have hr : (c :: rest).length ≤ f + 1 := hf
              simp only [List.length_cons] at hr hg
              simp only [splitWsAux]
              by_cases hws : jsIsWs c
              · simp only [hws, if_true]
                rw [ih g (rest.dropWhile jsIsWs) [] (by omega) (by omega)]
              · simp only [hws]
                exact ih g rest (c :: acc) (by omega) (by omega)

theorem windowsAux_fuel_irrel :
    ∀ (f g : ℕ) (ws : List String), ws.length ≤ f → ws.length ≤ g →
      windowsAux f ws = windowsAux g ws := by
  intro f
  induction f with
  | zero =>
      intro g ws hf _
      have : ws = [] := List.eq_nil_of_length_eq_zero (Nat.le_zero.mp hf)
      subst this
      cases g <;> rfl
  | succ f ih =>
      intro g ws hf hg
      cases ws with
      | nil => cases g <;> rfl
      | cons w ws =>
          cases g with
          | zero => exact absurd hg (by simp)
          | succ g =>
              simp only [windowsAux]
              refine congrArg _ ?_
              have h1 : (w :: ws).length ≤ f + 1 := hf
              have h2 : (w :: ws).length ≤ g + 1 := hg
              simp only [List.length_cons] at h1 h2
              refine ih g _ ?_ ?_ <;>
                simp only [List.length_drop, List.length_cons, CHUNK_WORDS,
                  OVERLAP] <;> omega

theorem windowsAux_length :
    ∀ (fuel : ℕ) (ws : List String), ws.length ≤ fuel →
      (windowsAux fuel ws).length = (ws.length + 449) / 450 := by
  intro fuel
  induction fuel with
  | zero =>
      intro ws h
      have : ws = [] := List.eq_nil_of_length_eq_zero (Nat.le_zero.mp h)
      subst this
      simp [windowsAux]
  | succ f ih =>
      intro ws h
      cases ws with
      | nil => simp [windowsAux]
      | cons w ws =>
          have hlen : (w :: ws).length = ws.length + 1 := by simp
          have hdrop : ((w :: ws).drop (CHUNK_WORDS - OVERLAP)).length
              = (ws.length + 1) - 450 := by
            simp [List.length_drop, CHUNK_WORDS, OVERLAP]
          have hle : ((w :: ws).drop (CHUNK_WORDS - OVERLAP)).length ≤ f := by
            rw [hdrop]
            simp only [List.length_cons] at h
            omega
          have := ih _ hle
          simp only [windowsAux, List.length_cons, this, hdrop]
          simp only [List.length_cons] at h ⊢
          omega

theorem chunkText_length (txt : String) :
    (chunkText txt).length = ((jsSplitWs txt).length + 449) / 450 := by
  unfold chunkText
  rw [List.length_map]
  exact windowsAux_length _ _ le_rfl

theorem windowsAux_getElemEq :
    ∀ (fuel : ℕ) (ws : List String) (k : ℕ), ws.length ≤ fuel →
      k < (windowsAux fuel ws).length →
      (windowsAux fuel ws)[k]? = some ((ws.drop (450 * k)).take 500) := by
  intro fuel
  induction fuel with
  | zero =>
      intro ws k h hk
      have : ws = [] := List.eq_nil_of_length_eq_zero (Nat.le_zero.mp h)
      subst this
      simp [windowsAux] at hk
  | succ f ih =>
      intro ws k h hk
      cases ws with
      | nil => simp [windowsAux] at hk
      | cons w ws =>
          cases k with
          | zero =>
              simp [windowsAux, CHUNK_WORDS]
          | succ k =>
              have hlen : ((w :: ws).drop (CHUNK_WORDS - OVERLAP)).length ≤ f := by
                simp only [List.length_drop, List.length_cons]
                simp only [List.length_cons] at h
                simp only [CHUNK_WORDS, OVERLAP]
                omega
              have hwlen : (windowsAux (f + 1) (w :: ws)).length
                  = (windowsAux f ((w :: ws).drop (CHUNK_WORDS - OVERLAP))).length + 1 := by
                simp [windowsAux]
              have hk' : k < (windowsAux f ((w :: ws).drop (CHUNK_WORDS - OVERLAP))).length := by
                omega
              have := ih ((w :: ws).drop (CHUNK_WORDS - OVERLAP)) k hlen hk'
              have harg : ((w :: ws).drop (CHUNK_WORDS - OVERLAP)).drop (450 * k)
                  = (w :: ws).drop (450 * (k + 1)) := by
                rw [List.drop_drop]
                congr 1
                simp only [CHUNK_WORDS, OVERLAP]
                omega
              rw [harg] at this
              simp only [windowsAux, List.getElem?_cons_succ, this]

set_option maxRecDepth 40000 in
/-- C3, counterexample: the claim says the chunk count for a text of N
whitespace-separated tokens is ceil(max(1, N-O)/(W-O)).  For the 451-token
text `t451` that formula gives 1, but `chunkText` produces 2 chunks (the loop
starts a final window at offset 450 covering only the last token, which the
formula does not count). -/
theorem C3_counterexample :
    (jsSplitWs t451).length = 451 ∧
    (chunkText t451).length = 2 ∧
    (max 1 (451 - OVERLAP) + (CHUNK_WORDS - OVERLAP) - 1)
        / (CHUNK_WORDS - OVERLAP) = 1 ∧
    (chunkText t451).length ≠
      (max 1 (451 - OVERLAP) + (CHUNK_WORDS - OVERLAP) - 1)
        / (CHUNK_WORDS - OVERLAP) := by
  refine ⟨by decide, by decide, by decide, by decide⟩

/-- C3, amended: for every text whose whitespace split has N tokens (N is
always at least 1 in JavaScript), the chunker produces exactly
ceil(N/(W-O)) = (N + 449)/450 chunks: one window per loop offset
0, 450, 900, … below N. -/
theorem C3_chunk_count (txt : String) (N : ℕ)
    (h : (jsSplitWs txt).length = N) (h1 : 1 ≤ N) :
    (chunkText txt).length = (N + 449) / 450 := by
  rw [chunkText_length, h]

/-- C3, witness: the amended count theorem at the two-token text. -/
theorem C3_chunk_count_witness :
    (chunkText "hola mundo").length = (2 + 449) / 450 :=
  C3_chunk_count "hola mundo" 2 (by decide) (by decide)

/-- C4: every token index of the split text is covered by the token window of
some produced chunk; two consecutive chunks share exactly
min(O, remaining) token indices, where remaining counts the tokens from the
later chunk's start; and the k-th chunk is precisely the window of 500 tokens
starting at offset 450k, joined with single spaces. -/
theorem C4_coverage_overlap (txt : String) :
    (∀ j < (jsSplitWs txt).length,
      ∃ k < (chunkText txt).length, 450 * k ≤ j ∧ j < 450 * k + 500) ∧
    (∀ k, k + 1 < (chunkText txt).length →
      sharedTokens (jsSplitWs txt).length k
        = min 50 ((jsSplitWs txt).length - 450 * (k + 1))) ∧
    (∀ k < (chunkText txt).length,
      (chunkText txt)[k]?
        = some (String.intercalate " "
            (((jsSplitWs txt).drop (450 * k)).take 500))) := by
  have hcount := chunkText_length txt
  refine ⟨?_, ?_, ?_⟩
  · intro j hj
    refine ⟨j / 450, ?_, ?_, ?_⟩ <;> omega
  · intro k hk
    have hlt : 450 * (k + 1) < (jsSplitWs txt).length := by omega
    have hset : ((Finset.range (jsSplitWs txt).length).filter fun j =>
        (450 * k ≤ j ∧ j < 450 * k + 500) ∧
        (450 * (k + 1) ≤ j ∧ j < 450 * (k + 1) + 500))
        = Finset.Ico (450 * (k + 1))
            (min (450 * k + 500) (jsSplitWs txt).length) := by
      ext j
      simp only [Finset.mem_filter, Finset.mem_range, Finset.mem_Ico,
        lt_min_iff]
      omega
    rw [sharedTokens, hset, Nat.card_Ico]
    omega
  · intro k hk
    unfold chunkText at hk ⊢
    simp only [List.length_map] at hk
    rw [List.getElem?_map, windowsAux_getElemEq _ _ k le_rfl hk]
    rfl

/-- C4, witness: coverage of token index 1 of a three-token text, via the
coverage theorem. -/
theorem C4_coverage_overlap_witness :
    ∃ k < (chunkText "uno dos tres").length, 450 * k ≤ 1 ∧ 1 < 450 * k + 500 :=
  (C4_coverage_overlap "uno dos tres").1 1 (by decide)

/-- C5: the claim says empty text yields zero chunks and ingestion reports
zero.  In JavaScript the empty string splits to a one-element array holding
the empty string, so `chunkText` produces one (empty) chunk and `ingestPDF`
reports a chunk count of 1; this theorem evaluates the code at the failing
input. -/
theorem C5_empty_text_eval :
    chunkText "" = [""] ∧ ingestReportedChunkCount "" = 1 ∧
    ingestReportedChunkCount "" ≠ 0 := by
  refine ⟨by decide, by decide, by decide⟩

/-- C8: `load()` never throws for an absent or corrupt file — both cases
initialize the empty store; a successful parse is returned as-is; and once a
load has populated the in-memory cache, every later `load()` returns exactly
the cached value, independent of the disk state (it does not re-read the
file). -/
theorem C8_load_total_idempotent :
    ((loadStep none none).1 = emptyCache ∧
      (loadStep none (some none)).1 = emptyCache) ∧
    (∀ c : Cache, loadStep none (some (some c)) = (c, some c)) ∧
    (∀ (c : Cache) (d : DiskState), loadStep (some c) d = (c, some c)) ∧
    (∀ d d' : DiskState,
      loadStep (loadStep none d).2 d' = loadStep none d) := by
  refine ⟨⟨rfl, rfl⟩, fun c => rfl, fun c d => rfl, fun d d' => ?_⟩
  cases d with
  | none => rfl
  | some p => cases p <;> rfl

theorem foldl_append_length (ms : ManualMap) :
    ∀ acc : List Chunk,
      (ms.foldl (fun acc p => acc ++ p.2.embeddings) acc).length
        = acc.length + (ms.map (fun p => p.2.embeddings.length)).sum := by
  induction ms with
  | nil => intro acc; simp
  | cons p ms ih =>
      intro acc
      simp only [List.foldl_cons, ih, List.map_cons, List.sum_cons,
        List.length_append]
      omega

/-- C10: the per-document chunk counts reported by `getAvailableManuals` sum
to the length of the flattened chunk list returned by `verifyVectorStore`:
the catalog and the flat chunk view observe the same store consistently. -/
theorem C10_catalog_flat_consistent (c : Cache) :
    ((getAvailableManuals c).map (fun s => s.chunks)).sum
      = (verifyVectorStore c).length := by
  cases hm : c.manuals with
  | none => simp [getAvailableManuals, verifyVectorStore, hm]
  | some ms =>
      simp only [getAvailableManuals, verifyVectorStore, hm]
      rw [foldl_append_length ms []]
      have hfun : ((fun s : ManualSummary => s.chunks) ∘
          fun p : String × Manual =>
            ManualSummary.mk p.1 p.2.info p.2.embeddings.length)
          = fun p : String × Manual => p.2.embeddings.length := rfl
      simp [hfun]

theorem getManual_cons (p : String × Manual) (ms : ManualMap) (a : String) :
    getManual (p :: ms) a
      = if p.1 == a then some p.2 else getManual ms a := by
  simp only [getManual, List.find?_cons]
  cases h : (p.1 == a) <;> simp [h]

theorem getManual_map_replace (k a : String) (v : Manual)
    (hka : (k == a) = false) :
    ∀ ms : ManualMap,
      getManual (ms.map (fun p => if p.1 == k then (k, v) else p)) a
        = getManual ms a := by
  intro ms
  induction ms with
  | nil => rfl
  | cons p ms ih =>
      rw [List.map_cons]
      by_cases hp : (p.1 == k) = true
      · have hpk : p.1 = k := beq_iff_eq.mp hp
        have hpa : (p.1 == a) = false := by rw [hpk]; exact hka
        simp only [hp, if_true, getManual_cons, hka, hpa,
          Bool.false_eq_true, if_false, ih]
      · have hp' : (p.1 == k) = false := by simpa using hp
        simp only [hp', Bool.false_eq_true, if_false, getManual_cons, ih]

theorem getManual_map_replace_same (k : String) (v : Manual) :
    ∀ ms : ManualMap, ms.any (fun p => p.1 == k) = true →
      getManual (ms.map (fun p => if p.1 == k then (k, v) else p)) k
        = some v := by
  intro ms
  induction ms with
  | nil => intro h; simp at h
  | cons p ms ih =>
      intro h
      rw [List.map_cons]
      by_cases hp : (p.1 == k) = true
      · simp only [hp, if_true, getManual_cons, beq_self_eq_true]
      · have hp' : (p.1 == k) = false := by simpa using hp
        have hms : ms.any (fun p => p.1 == k) = true := by
          simpa [List.any_cons, hp'] using h
        simp only [hp', Bool.false_eq_true, if_false, getManual_cons, hp',
          ih hms]

theorem getManual_append_single (k a : String) (v : Manual)
    (hka : (k == a) = false) :
    ∀ ms : ManualMap, getManual (ms ++ [(k, v)]) a = getManual ms a := by
  intro ms
  induction ms with
  | nil => simp [getManual, List.find?, hka]
  | cons p ms ih =>
      rw [List.cons_append, getManual_cons, getManual_cons, ih]

theorem getManual_append_single_same (k : String) (v : Manual) :
    ∀ ms : ManualMap, ms.any (fun p => p.1 == k) = false →
      getManual (ms ++ [(k, v)]) k = some v := by
  intro ms
  induction ms with
  | nil => intro h; simp [getManual, List.find?]
  | cons p ms ih =>
      intro h
      have hp : (p.1 == k) = false := by
        cases hb : (p.1 == k) with
        | false => rfl
        | true => rw [List.any_cons, hb] at h; simp at h
      have hms : ms.any (fun p => p.1 == k) = false := by
        rw [List.any_cons, hp] at h
        simpa using h
      rw [List.cons_append, getManual_cons]
      simp [hp, ih hms]

theorem getManual_setManual_same (ms : ManualMap) (k : String) (v : Manual) :
    getManual (setManual ms k v) k = some v := by
  unfold setManual
  cases hany : ms.any (fun p => p.1 == k) with
  | true =>
      simp only [if_true]
      exact getManual_map_replace_same k v ms hany
  | false =>
      simp only [Bool.false_eq_true, if_false]
      exact getManual_append_single_same k v ms hany

theorem getManual_setManual_other (ms : ManualMap) (k a : String)
    (v : Manual) (h : a ≠ k) :
    getManual (setManual ms k v) a = getManual ms a := by
  have hka : (k == a) = false :=
    beq_eq_false_iff_ne.mpr (fun hh => h hh.symm)
  unfold setManual
  cases hany : ms.any (fun p => p.1 == k) with
  | true =>
      simp only [if_true]
      exact getManual_map_replace k a v hka ms
  | false =>
      simp only [Bool.false_eq_true, if_false]
      exact getManual_append_single k a v hka ms

/-- C7: upserting a document at id B leaves every other id A untouched and
wholesale-replaces the document stored at B with the new chunks and
metadata. -/
theorem C7_upsert_frame (c : Cache) (e : List Chunk) (A B : String)
    (i : ManualInfo) (h : A ≠ B) :
    getManual ((upsertManual c e B i).manuals.getD []) A
        = getManual (c.manuals.getD []) A ∧
    getManual ((upsertManual c e B i).manuals.getD []) B = some ⟨e, i⟩ := by
  constructor
  · exact getManual_setManual_other _ B A ⟨e, i⟩ h
  · exact getManual_setManual_same _ B ⟨e, i⟩

/-- C7, witness: upsert into a store holding one manual under another id. -/
theorem C7_upsert_frame_witness :
    getManual ((upsertManual mismatchCache [] "b" dummyInfo).manuals.getD [])
        "m1" = getManual (mismatchCache.manuals.getD []) "m1" ∧
    getManual ((upsertManual mismatchCache [] "b" dummyInfo).manuals.getD [])
        "b" = some ⟨[], dummyInfo⟩ :=
  C7_upsert_frame mismatchCache [] "m1" "b" dummyInfo (by decide)

theorem idCount_append_single (l : List SearchR) (r : SearchR) (id : String) :
    idCount (l ++ [r]) id
      = idCount l id + (if id = r.manualId then 1 else 0) := by
  simp only [idCount, List.map_append, List.count_append, List.map_cons,
    List.map_nil]
  by_cases h : id = r.manualId <;>
    simp [List.count_cons, List.count_nil, h]

theorem attribFold_inv (rs : List SearchR) :
    ∀ (rest processed : List SearchR) (st : AttribState),
      (∀ id, st.counts id = idCount processed id) →
      (∀ id, idCount processed id ≤ st.topCount) →
      (st.top = none → st.topCount = 0) →
      (∀ t, st.top = some t → idCount processed t.id = st.topCount) →
      ((∀ id, (rest.foldl (attribStep rs) st).counts id
          = idCount (processed ++ rest) id) ∧
       (∀ id, idCount (processed ++ rest) id
          ≤ (rest.foldl (attribStep rs) st).topCount) ∧
       ((rest.foldl (attribStep rs) st).top = none
          → (rest.foldl (attribStep rs) st).topCount = 0) ∧
       (∀ t, (rest.foldl (attribStep rs) st).top = some t
          → idCount (processed ++ rest) t.id
            = (rest.foldl (attribStep rs) st).topCount)) := by
  intro rest
  induction rest with
  | nil =>
      intro processed st h1 h2 h3 h4
      simpa using ⟨h1, h2, h3, h4⟩
  | cons r rest ih =>
      intro processed st h1 h2 h3 h4
      rw [List.foldl_cons]
      have happ : processed ++ r :: rest = (processed ++ [r]) ++ rest := by
        simp
      rw [happ]
      by_cases hlt : st.topCount < st.counts r.manualId + 1
      · have hstep : attribStep rs st r =
            ⟨fun id => if id = r.manualId then st.counts r.manualId + 1
              else st.counts id,
             some
               { id := r.manualId
                 info := r.manualInfo
                 chunkIds := (rs.filter
                     (fun x => x.manualId == r.manualId)).map
                   (fun x => if x.chunkId = "" then "sin-id"
                     else x.chunkId) },
             st.counts r.manualId + 1⟩ := by
          unfold attribStep
          simp [hlt]
        rw [hstep]
        refine ih (processed ++ [r]) _ ?_ ?_ ?_ ?_
        · intro id
          rw [idCount_append_single]
          by_cases hid : id = r.manualId <;> simp [hid, h1]
        · intro id
          rw [idCount_append_single]
          by_cases hid : id = r.manualId
          · have := h1 r.manualId
            simp [hid, this]
          · have := h2 id
            simp only [hid, if_false]
            omega
        · intro hnone
          simp at hnone
        · intro t ht
          simp only [Option.some_inj] at ht
          subst ht
          rw [idCount_append_single]
          have := h1 r.manualId
          simp [this]
      · have hstep : attribStep rs st r =
            ⟨fun id => if id = r.manualId then st.counts r.manualId + 1
              else st.counts id,
             st.top, st.topCount⟩ := by
          unfold attribStep
          simp [hlt]
        rw [hstep]
        refine ih (processed ++ [r]) _ ?_ ?_ ?_ ?_
        · intro id
          rw [idCount_append_single]
          by_cases hid : id = r.manualId <;> simp [hid, h1]
        · intro id
          rw [idCount_append_single]
          by_cases hid : id = r.manualId
          · have := h1 r.manualId
            rw [hid]
            simp only [if_true, if_pos rfl]
            rw [← this]
            omega
          · have := h2 id
            simp only [hid, if_false]
            omega
        · exact h3
        · intro t ht
          rw [idCount_append_single]
          have hc := h4 t ht
          by_cases hid : t.id = r.manualId
          · exfalso
            have hcc : st.counts r.manualId = idCount processed r.manualId :=
              h1 r.manualId
            rw [← hid] at hcc hlt
            rw [hc] at hcc
            omega
          · simp only [hid, if_false]
            omega

/-- C9, counterexample: for results with manual ids B, A, A, B the counts of
A and B tie at 2 and B is the first-seen id, yet the loop selects A (its
running count is the first to exceed the running best); so ties are not
resolved in favor of the first-seen id. -/
theorem C9_counterexample :
    (mostRelevantManual [resB, resA, resA, resB]).map (fun t => t.id)
      = some "A" ∧
    idCount [resB, resA, resA, resB] "A"
      = idCount [resB, resA, resA, resB] "B" ∧
    [resB, resA, resA, resB].head?.map (fun r => r.manualId) = some "B" ∧
    ("A" : String) ≠ "B" := by
  refine ⟨by decide, by decide, by decide, by decide⟩

/-- C9, amended: for every non-empty result sequence the selected manual has
a maximal occurrence count among the results; ties are resolved in favor of
the id whose running count first reaches that maximum, which need not be the
first-seen id; for ids [A, A, B, A] the selection is A (and for [B, A, A, B]
it is also A although B is seen first). -/
theorem C9_most_relevant (rs : List SearchR) (h : rs ≠ []) :
    (∃ t : TopManual, mostRelevantManual rs = some t ∧
      ∀ id, idCount rs id ≤ idCount rs t.id) ∧
    (mostRelevantManual [resA, resA, resB, resA]).map (fun t => t.id)
      = some "A" ∧
    (mostRelevantManual [resB, resA, resA, resB]).map (fun t => t.id)
      = some "A" := by
  refine ⟨?_, by decide, by decide⟩
  obtain ⟨h1, h2, h3, h4⟩ := attribFold_inv rs rs [] ⟨fun _ => 0, none, 0⟩
    (by intro id; simp [idCount]) (by intro id; simp [idCount])
    (fun _ => rfl) (by intro t ht; simp at ht)
  simp only [List.nil_append] at h1 h2 h3 h4
  unfold mostRelevantManual
  cases htop : (rs.foldl (attribStep rs) ⟨fun _ => 0, none, 0⟩).top with
  | none =>
      exfalso
      have h0 := h3 htop
      cases rs with
      | nil => exact h rfl
      | cons r rest =>
          have hb := h2 r.manualId
          rw [h0] at hb
          simp [idCount, List.count_cons] at hb
  | some t =>
      refine ⟨t, rfl, fun id => ?_⟩
      rw [h4 t htop]
      exact h2 id

/-- C9, witness: the amended attribution theorem at a singleton result
list. -/
theorem C9_most_relevant_witness :
    ∃ t : TopManual, mostRelevantManual [resA] = some t ∧
      ∀ id, idCount [resA] id ≤ idCount [resA] t.id :=
  (C9_most_relevant [resA] (by decide)).1

theorem dotQ_nil : dotQ [] [] = 0 := rfl

theorem dotQ_self_cons (x : ℚ) (xs : List ℚ) :
    dotQ (x :: xs) (x :: xs) = x * x + dotQ xs xs := by
  simp [dotQ, List.zip_cons_cons]

theorem dotQ_self_nonneg (a : List ℚ) : 0 ≤ dotQ a a := by
  induction a with
  | nil => simp [dotQ]
  | cons x xs ih =>
      rw [dotQ_self_cons]
      have := mul_self_nonneg x
      linarith

theorem cosineScore_canon (a b : List ℚ) : ScoreCanon (cosineScore a b) := by
  unfold cosineScore
  by_cases h1 : b.length < a.length
  · simp only [h1, if_true]
    trivial
  · simp only [h1, if_false]
    by_cases h2 : dotQ a a = 0 ∨ dotQ (b.take a.length) (b.take a.length) = 0
    · simp only [h2, if_true]
      trivial
    · simp only [h2, if_false]
      push_neg at h2
      obtain ⟨hna, hnb⟩ := h2
      have hna' : 0 < dotQ a a :=
        lt_of_le_of_ne (dotQ_self_nonneg a) (Ne.symm hna)
      have hnb' : 0 < dotQ (b.take a.length) (b.take a.length) :=
        lt_of_le_of_ne (dotQ_self_nonneg _) (Ne.symm hnb)
      by_cases hd : 0 < dotQ a (b.take a.length)
      · right; left
        refine ⟨by simp [hd], ?_⟩
        have : dotQ a (b.take a.length) ≠ 0 := ne_of_gt hd
        positivity
      · by_cases hd' : dotQ a (b.take a.length) < 0
        · right; right
          refine ⟨by simp [hd, hd'], ?_⟩
          have : dotQ a (b.take a.length) ≠ 0 := ne_of_lt hd'
          positivity
        · left
          have hz : dotQ a (b.take a.length) = 0 := by linarith
          refine ⟨by simp [hd, hd'], ?_⟩
          rw [hz]
          simp

theorem gtB_char (s t : Int) (q r : ℚ) :
    scoreGtB (some (s, q)) (some (t, r)) = true ↔
      (t < s ∨ (s = t ∧ 0 < s ∧ r < q) ∨ (s = t ∧ s < 0 ∧ q < r)) := by
  simp only [scoreGtB]
  by_cases h1 : t < s
  · rw [if_pos h1]
    exact iff_of_true rfl (Or.inl h1)
  · rw [if_neg h1]
    by_cases h2 : s = t
    · rw [if_pos h2]
      by_cases h3 : 0 < s
      · rw [if_pos h3]
        constructor
        · intro hd
          exact Or.inr (Or.inl ⟨h2, h3, of_decide_eq_true hd⟩)
        · rintro (hts | ⟨_, _, hrq⟩ | ⟨_, hneg, _⟩)
          · omega
          · exact decide_eq_true hrq
          · omega
      · rw [if_neg h3]
        by_cases h4 : s < 0
        · rw [if_pos h4]
          constructor
          · intro hd
            exact Or.inr (Or.inr ⟨h2, h4, of_decide_eq_true hd⟩)
          · rintro (hts | ⟨_, hpos, _⟩ | ⟨_, _, hqr⟩)
            · omega
            · omega
            · exact decide_eq_true hqr
        · rw [if_neg h4]
          constructor
          · intro hfalse
            exact absurd hfalse (by simp)
          · rintro (hts | ⟨_, hpos, _⟩ | ⟨_, hneg, _⟩) <;> omega
    · rw [if_neg h2]
      constructor
      · intro hfalse
        exact absurd hfalse (by simp)
      · rintro (hts | ⟨hst, _, _⟩ | ⟨hst, _, _⟩) <;> omega

theorem gtB_irrefl (x : Option (Int × ℚ)) : scoreGtB x x = false := by
  cases x with
  | none => rfl
  | some v =>
      obtain ⟨s, q⟩ := v
      rw [Bool.eq_false_iff]
      intro h
      rcases (gtB_char s s q q).mp h with h' | ⟨_, _, h'⟩ | ⟨_, _, h'⟩
      · omega
      · exact absurd h' (lt_irrefl q)
      · exact absurd h' (lt_irrefl q)

theorem gtB_asymm (x y : Option (Int × ℚ)) (h : scoreGtB x y = true) :
    scoreGtB y x = false := by
  cases x with
  | none => simp [scoreGtB] at h
  | some vx =>
      cases y with
      | none => simp [scoreGtB] at h
      | some vy =>
          obtain ⟨s, q⟩ := vx
          obtain ⟨t, r⟩ := vy
          rw [Bool.eq_false_iff]
          intro h'
          rcases (gtB_char s t q r).mp h with a1 | ⟨a1, a2, a3⟩ | ⟨a1, a2, a3⟩ <;>
            rcases (gtB_char t s r q).mp h' with b1 | ⟨b1, b2, b3⟩ | ⟨b1, b2, b3⟩ <;>
            first
              | omega
              | exact absurd (lt_trans a3 b3) (lt_irrefl _)
              | exact absurd (lt_trans b3 a3) (lt_irrefl _)

theorem gtB_trans (x y z : Option (Int × ℚ)) (hxy : scoreGtB x y = true)
    (hyz : scoreGtB y z = true) : scoreGtB x z = true := by
  cases x with
  | none => simp [scoreGtB] at hxy
  | some vx =>
      cases y with
      | none => simp [scoreGtB] at hxy
      | some vy =>
          cases z with
          | none => simp [scoreGtB] at hyz
          | some vz =>
              obtain ⟨s, q⟩ := vx
              obtain ⟨t, r⟩ := vy
              obtain ⟨u, w⟩ := vz
              rw [gtB_char] at hxy hyz ⊢
              rcases hxy with a1 | ⟨a1, a2, a3⟩ | ⟨a1, a2, a3⟩ <;>
                rcases hyz with b1 | ⟨b1, b2, b3⟩ | ⟨b1, b2, b3⟩
              · exact Or.inl (by omega)
              · exact Or.inl (by omega)
              · exact Or.inl (by omega)
              · exact Or.inl (by omega)
              · exact Or.inr (Or.inl ⟨by omega, by omega, by linarith⟩)
              · exact Or.inl (by omega)
              · exact Or.inl (by omega)
              · exact Or.inl (by omega)
              · exact Or.inr (Or.inr ⟨by omega, by omega, by linarith⟩)

theorem scoreGtB_real (s t : Int) (q r : ℚ)
    (cx : ScoreCanon (some (s, q))) (cy : ScoreCanon (some (t, r))) :
    (scoreGtB (some (s, q)) (some (t, r)) = true
      ↔ scoreReal (some (t, r)) < scoreReal (some (s, q))) := by
  rcases cx with ⟨hs, hq⟩ | ⟨hs, hq⟩ | ⟨hs, hq⟩ <;>
    rcases cy with ⟨ht, hr⟩ | ⟨ht, hr⟩ | ⟨ht, hr⟩ <;>
    subst hs <;> subst ht <;>
    simp only [scoreReal, Int.cast_one, Int.cast_zero, Int.cast_neg,
      one_mul, zero_mul, neg_mul]
  · -- x = (0,0), y = (0,0)
    subst hq; subst hr
    exact iff_of_false (by decide) (by simp)
  · -- x = (0,0), y = (1,r)
    subst hq
    refine iff_of_false ?_ ?_
    · intro h
      rcases (gtB_char 0 1 0 r).mp h with h' | ⟨h', _⟩ | ⟨h', _⟩ <;> omega
    · exact not_lt.mpr (Real.sqrt_nonneg _)
  · -- x = (0,0), y = (-1,r)
    subst hq
    refine iff_of_true ?_ ?_
    · exact (gtB_char 0 (-1) 0 r).mpr (Or.inl (by omega))
    · have : 0 < Real.sqrt (r : ℝ) :=
        Real.sqrt_pos.mpr (by exact_mod_cast hr)
      linarith
  · -- x = (1,q), y = (0,0)
    subst hr
    refine iff_of_true ?_ ?_
    · exact (gtB_char 1 0 q 0).mpr (Or.inl (by omega))
    · exact Real.sqrt_pos.mpr (by exact_mod_cast hq)
  · -- x = (1,q), y = (1,r)
    rw [gtB_char]
    constructor
    · rintro (h | ⟨_, _, hrq⟩ | ⟨_, hneg, _⟩)
      · omega
      · exact Real.sqrt_lt_sqrt (by positivity) (by exact_mod_cast hrq)
      · omega
    · intro hlt
      have : (r : ℝ) < (q : ℝ) := by
        have h0 : (0:ℝ) ≤ (r : ℝ) := by positivity
        exact (Real.sqrt_lt_sqrt_iff h0).mp hlt
      exact Or.inr (Or.inl ⟨rfl, by omega, by exact_mod_cast this⟩)
  · -- x = (1,q), y = (-1,r)
    refine iff_of_true ?_ ?_
    · exact (gtB_char 1 (-1) q r).mpr (Or.inl (by omega))
    · have h1 : 0 < Real.sqrt (q : ℝ) :=
        Real.sqrt_pos.mpr (by exact_mod_cast hq)
      have h2 : 0 ≤ Real.sqrt (r : ℝ) := Real.sqrt_nonneg _
      linarith
  · -- x = (-1,q), y = (0,0)
    subst hr
    refine iff_of_false ?_ ?_
    · intro h
      rcases (gtB_char (-1) 0 q 0).mp h with h' | ⟨h', _⟩ | ⟨_, h', _⟩ <;>
        omega
    · have : 0 ≤ Real.sqrt (q : ℝ) := Real.sqrt_nonneg _
      linarith
  · -- x = (-1,q), y = (1,r)
    refine iff_of_false ?_ ?_
    · intro h
      rcases (gtB_char (-1) 1 q r).mp h with h' | ⟨h', _⟩ | ⟨h', _⟩ <;> omega
    · have h1 : 0 ≤ Real.sqrt (q : ℝ) := Real.sqrt_nonneg _
      have h2 : 0 ≤ Real.sqrt (r : ℝ) := Real.sqrt_nonneg _
      linarith
  · -- x = (-1,q), y = (-1,r)
    rw [gtB_char]
    constructor
    · rintro (h | ⟨_, hpos, _⟩ | ⟨_, _, hqr⟩)
      · omega
      · omega
      · have : Real.sqrt (q : ℝ) < Real.sqrt (r : ℝ) :=
          Real.sqrt_lt_sqrt (by positivity) (by exact_mod_cast hqr)
        linarith
    · intro hlt
      have hlt' : Real.sqrt (q : ℝ) < Real.sqrt (r : ℝ) := by linarith
      have : (q : ℝ) < (r : ℝ) := by
        have h0 : (0:ℝ) ≤ (q : ℝ) := by positivity
        exact (Real.sqrt_lt_sqrt_iff h0).mp hlt'
      exact Or.inr (Or.inr ⟨rfl, by omega, by exact_mod_cast this⟩)

theorem scoreReal_thr04 : scoreReal thr04 = 2 / 5 := by
  simp only [thr04, scoreReal, Int.cast_one, one_mul]
  rw [show (((4 : ℚ) / 25 : ℚ) : ℝ) = (2 / 5 : ℝ) ^ 2 by norm_num]
  exact Real.sqrt_sq (by norm_num)

theorem thr04_canon : ScoreCanon thr04 := by
  right; left
  exact ⟨rfl, by norm_num⟩

theorem cosineScore_eq_some (a b : List ℚ) (hlen : ¬ b.length < a.length)
    (hna : dotQ a a ≠ 0)
    (hnb : dotQ (b.take a.length) (b.take a.length) ≠ 0) :
    cosineScore a b
      = some (if 0 < dotQ a (b.take a.length) then 1
          else if dotQ a (b.take a.length) < 0 then -1 else 0,
          dotQ a (b.take a.length) ^ 2
            / (dotQ a a * dotQ (b.take a.length) (b.take a.length))) := by
  unfold cosineScore
  rw [if_neg hlen, if_neg (by push_neg; exact ⟨hna, hnb⟩)]

theorem cosineScore_real (a b : List ℚ) (hlen : ¬ b.length < a.length)
    (hna : dotQ a a ≠ 0)
    (hnb : dotQ (b.take a.length) (b.take a.length) ≠ 0) :
    scoreReal (cosineScore a b) = cosineR a b := by
  have hnaP : (0 : ℚ) < dotQ a a :=
    lt_of_le_of_ne (dotQ_self_nonneg a) (Ne.symm hna)
  have hnbP : (0 : ℚ) < dotQ (b.take a.length) (b.take a.length) :=
    lt_of_le_of_ne (dotQ_self_nonneg _) (Ne.symm hnb)
  have hnaR : (0 : ℝ) < ((dotQ a a : ℚ) : ℝ) := by exact_mod_cast hnaP
  have hnbR : (0 : ℝ)
      < ((dotQ (b.take a.length) (b.take a.length) : ℚ) : ℝ) := by
    exact_mod_cast hnbP
  rw [cosineScore_eq_some a b hlen hna hnb]
  have hsq : Real.sqrt (((dotQ a (b.take a.length) ^ 2
        / (dotQ a a * dotQ (b.take a.length) (b.take a.length)) : ℚ)) : ℝ)
      = |((dotQ a (b.take a.length) : ℚ) : ℝ)|
        / (Real.sqrt ((dotQ a a : ℚ) : ℝ)
            * Real.sqrt
              ((dotQ (b.take a.length) (b.take a.length) : ℚ) : ℝ)) := by
    push_cast
    rw [Real.sqrt_div (by positivity), Real.sqrt_sq_eq_abs,
      Real.sqrt_mul (le_of_lt hnaR)]
  by_cases hd : 0 < dotQ a (b.take a.length)
  · rw [if_pos hd]
    simp only [scoreReal, Int.cast_one, one_mul, hsq, cosineR]
    rw [abs_of_pos (by exact_mod_cast hd)]
  · by_cases hd' : dotQ a (b.take a.length) < 0
    · rw [if_neg hd, if_pos hd']
      simp only [scoreReal, Int.cast_neg, Int.cast_one, neg_mul, one_mul,
        hsq, cosineR]
      rw [abs_of_neg (by exact_mod_cast hd')]
      field_simp
    · rw [if_neg hd, if_neg hd']
      have hz : dotQ a (b.take a.length) = 0 := by linarith
      simp only [scoreReal, Int.cast_zero, zero_mul, cosineR, hz,
        Rat.cast_zero, zero_div]

/-- C6, counterexample: for the query vector [1, 0] and the stored chunk
vector [1, 0, 0] — different dimensionality — the similarity computation
raises nothing: it returns the plain numeric score 1 (computed over the first
two components), and the whole search completes normally with that score. -/
theorem cosineScore_mismatch_eval :
    cosineScore [1, 0] [1, 0, 0] = some (1, 1) := by
  have hna : dotQ ([1, 0] : List ℚ) [1, 0] ≠ 0 := by norm_num [dotQ]
  rw [cosineScore_eq_some [1, 0] [1, 0, 0] (by decide) hna hna]
  have htake : (([1, 0, 0] : List ℚ).take ([1, 0] : List ℚ).length)
      = [1, 0] := rfl
  rw [htake]
  norm_num [dotQ]

theorem gtB_one_thr : scoreGtB (some (1, 1)) thr04 = true :=
  (gtB_char 1 1 1 (4 / 25)).mpr (Or.inr (Or.inl ⟨rfl, by norm_num,
    by norm_num⟩))

theorem similaritySearch_mismatch_eval :
    similaritySearch [1, 0] mismatchCache 4
      = [⟨"texto", some (1, 1), "m1", dummyInfo, "chunk-0"⟩] := by
  have hfil : candidatesFiltered [1, 0]
      [("m1", ⟨[⟨"chunk-0", "texto", [1, 0, 0]⟩], dummyInfo⟩)]
      = [⟨"texto", some (1, 1), "m1", dummyInfo, "chunk-0"⟩] := by
    simp only [candidatesFiltered, List.flatMap_cons, List.flatMap_nil,
      List.append_nil]
    rw [show ([⟨"chunk-0", "texto", [1, 0, 0]⟩] : List Chunk).enum
        = [(0, ⟨"chunk-0", "texto", [1, 0, 0]⟩)] from rfl]
    simp only [List.filterMap_cons, List.filterMap_nil, resultOf,
      cosineScore_mismatch_eval, gtB_one_thr, if_true]
    rfl
  simp only [similaritySearch, mismatchCache]
  rw [hfil]
  rfl

/-- C6, counterexample: for the query vector [1, 0] and the stored chunk
vector [1, 0, 0] — different dimensionality — the similarity computation
raises nothing: it returns the plain numeric score 1 (computed over the first
two components), and the whole search completes normally with that score. -/
theorem C6_counterexample :
    ([1, 0] : List ℚ).length ≠ ([1, 0, 0] : List ℚ).length ∧
    cosineScore [1, 0] [1, 0, 0] = some (1, 1) ∧
    (similaritySearch [1, 0] mismatchCache 4).map (fun r => r.score)
      = [some (1, 1)] := by
  refine ⟨by decide, cosineScore_mismatch_eval, ?_⟩
  rw [similaritySearch_mismatch_eval]
  rfl

/-- C6, amended: the code performs no dimension check.  When the chunk vector
is shorter than the query, the out-of-range accesses make the score NaN; when
it is at least as long, the extra components are silently ignored and a
numeric score — the cosine over the first query-length components — is
returned (provided both participating self-dots are nonzero, otherwise the
score is NaN from 0/0).  No error of any kind is raised. -/
theorem C6_no_dimension_check (a b : List ℚ) :
    (b.length < a.length → cosineScore a b = none) ∧
    (¬ b.length < a.length → dotQ a a ≠ 0 →
      dotQ (b.take a.length) (b.take a.length) ≠ 0 →
      ∃ v : Int × ℚ, cosineScore a b = some v ∧
        scoreReal (cosineScore a b) = cosineR a b) := by
  constructor
  · intro h
    unfold cosineScore
    rw [if_pos h]
  · intro hlen hna hnb
    exact ⟨_, cosineScore_eq_some a b hlen hna hnb,
      cosineScore_real a b hlen hna hnb⟩

/-- C6, witness: the amended theorem applied to a shorter chunk vector (NaN)
and to a longer one (numeric score). -/
theorem C6_no_dimension_check_witness :
    cosineScore [1, 0, 0] [1, 0] = none ∧
    (∃ v : Int × ℚ, cosineScore [1, 0] [1, 0, 0] = some v ∧
      scoreReal (cosineScore [1, 0] [1, 0, 0]) = cosineR [1, 0] [1, 0, 0]) :=
  ⟨(C6_no_dimension_check [1, 0, 0] [1, 0]).1 (by decide),
   (C6_no_dimension_check [1, 0] [1, 0, 0]).2 (by decide)
     (by norm_num [dotQ]) (by norm_num [dotQ])⟩

theorem insertDesc_perm (x : SearchR) (l : List SearchR) :
    (insertDesc x l).Perm (x :: l) := by
  induction l with
  | nil => exact List.Perm.refl _
  | cons y ys ih =>
      rw [insertDesc]
      by_cases h : scoreGtB x.score y.score = true
      · rw [if_pos h]
      · rw [if_neg h]
        exact (List.Perm.cons y ih).trans (List.Perm.swap x y ys)

theorem sortDescAux_perm (l : List SearchR) :
    ∀ acc : List SearchR,
      (l.foldl (fun acc x => insertDesc x acc) acc).Perm (acc ++ l) := by
  induction l with
  | nil => intro acc; simp
  | cons x l ih =>
      intro acc
      rw [List.foldl_cons]
      refine (ih (insertDesc x acc)).trans ?_
      refine (List.Perm.append_right l (insertDesc_perm x acc)).trans ?_
      exact List.perm_middle.symm

theorem sortDesc_perm (l : List SearchR) : (sortDesc l).Perm l := by
  simpa using sortDescAux_perm l []

theorem insertDesc_pairwise (x : SearchR) (l : List SearchR)
    (h : l.Pairwise (fun a b => scoreGtB b.score a.score = false)) :
    (insertDesc x l).Pairwise
      (fun a b => scoreGtB b.score a.score = false) := by
  induction l with
  | nil => simp [insertDesc]
  | cons y ys ih =>
      rw [List.pairwise_cons] at h
      obtain ⟨hy, hys⟩ := h
      rw [insertDesc]
      by_cases hgt : scoreGtB x.score y.score = true
      · rw [if_pos hgt]
        refine List.Pairwise.cons ?_ (List.Pairwise.cons hy hys)
        intro z hz
        rcases List.mem_cons.mp hz with rfl | hz'
        · exact gtB_asymm _ _ hgt
        · rw [Bool.eq_false_iff]
          intro hzx
          have htr : scoreGtB z.score y.score = true := gtB_trans _ _ _ hzx hgt
          rw [hy z hz'] at htr
          exact Bool.false_ne_true htr
      · rw [if_neg hgt]
        refine List.Pairwise.cons ?_ (ih hys)
        intro z hz
        have hz' := (insertDesc_perm x ys).mem_iff.mp hz
        rcases List.mem_cons.mp hz' with rfl | hz''
        · exact Bool.eq_false_iff.mpr hgt
        · exact hy z hz''

theorem sortDescAux_pairwise (l : List SearchR) :
    ∀ acc : List SearchR,
      acc.Pairwise (fun a b => scoreGtB b.score a.score = false) →
      (l.foldl (fun acc x => insertDesc x acc) acc).Pairwise
        (fun a b => scoreGtB b.score a.score = false) := by
  induction l with
  | nil => intro acc h; exact h
  | cons x l ih =>
      intro acc h
      rw [List.foldl_cons]
      exact ih _ (insertDesc_pairwise x acc h)

theorem sortDesc_pairwise (l : List SearchR) :
    (sortDesc l).Pairwise (fun a b => scoreGtB b.score a.score = false) :=
  sortDescAux_pairwise l [] (List.Pairwise.nil)


theorem insertDesc_filter_score (x : SearchR) (l : List SearchR)
    (s : Option (Int × ℚ))
    (h : l.Pairwise (fun a b => scoreGtB b.score a.score = false)) :
    (insertDesc x l).filter (fun r => decide (r.score = s))
      = if x.score = s
        then l.filter (fun r => decide (r.score = s)) ++ [x]
        else l.filter (fun r => decide (r.score = s)) := by
  induction l with
  | nil =>
      by_cases hx : x.score = s <;> simp [insertDesc, hx]
  | cons y ys ih =>
      rw [List.pairwise_cons] at h
      obtain ⟨hy, hys⟩ := h
      rw [insertDesc]
      by_cases hgt : scoreGtB x.score y.score = true
      · rw [if_pos hgt]
        by_cases hx : x.score = s
        · have hyne : ¬ y.score = s := by
            intro hy'
            have hxy : y.score = x.score := by rw [hy', hx]
            rw [hxy, gtB_irrefl] at hgt
            exact Bool.false_ne_true hgt
          have hzs : ∀ z ∈ ys, ¬ z.score = s := by
            intro z hz hzs'
            have hzy : z.score = x.score := by rw [hzs', hx]
            have hf := hy z hz
            rw [hzy, hgt] at hf
            exact Bool.false_ne_true hf.symm
          have hfil : (y :: ys).filter (fun r => decide (r.score = s))
              = [] := by
            rw [List.filter_eq_nil_iff]
            intro z hz
            rcases List.mem_cons.mp hz with rfl | hz'
            · simpa using hyne
            · simpa using hzs z hz'
          rw [if_pos hx]
          rw [hfil]
          simp [List.filter_cons, hx, hfil]
        · rw [if_neg hx]
          simp [List.filter_cons, hx]
      · rw [if_neg hgt]
        by_cases hx : x.score = s <;> by_cases hpy : y.score = s <;>
          simp [List.filter_cons, hx, hpy, ih hys]

theorem sortDescAux_filter (s : Option (Int × ℚ)) (l : List SearchR) :
    ∀ acc : List SearchR,
      acc.Pairwise (fun a b => scoreGtB b.score a.score = false) →
      (l.foldl (fun acc x => insertDesc x acc) acc).filter
          (fun r => decide (r.score = s))
        = acc.filter (fun r => decide (r.score = s))
          ++ l.filter (fun r => decide (r.score = s)) := by
  induction l with
  | nil => intro acc hacc; simp
  | cons x l ih =>
      intro acc hacc
      rw [List.foldl_cons, ih (insertDesc x acc) (insertDesc_pairwise x acc hacc),
        insertDesc_filter_score x acc s hacc]
      by_cases hx : x.score = s <;> simp [List.filter_cons, hx]

theorem sortDesc_filter_score (l : List SearchR) (s : Option (Int × ℚ)) :
    (sortDesc l).filter (fun r => decide (r.score = s))
      = l.filter (fun r => decide (r.score = s)) := by
  simpa using sortDescAux_filter s l [] (List.Pairwise.nil)

theorem filterMap_guard (l : List (ℕ × Chunk)) (g : ℕ × Chunk → SearchR)
    (pr : SearchR → Bool) :
    l.filterMap (fun ic => if pr (g ic) then some (g ic) else none)
      = (l.map g).filter pr := by
  induction l with
  | nil => rfl
  | cons a l ih =>
      simp only [List.filterMap_cons, List.map_cons, List.filter_cons]
      by_cases h : pr (g a) = true <;> simp [h, ih]

theorem candidatesFiltered_eq (q : List ℚ) (ms : ManualMap) :
    candidatesFiltered q ms
      = (candidatesAll q ms).filter (fun r => scoreGtB r.score thr04) := by
  induction ms with
  | nil => rfl
  | cons p ms ih =>
      have hhead := filterMap_guard p.2.embeddings.enum
        (fun ic => resultOf q p.1 p.2.info ic.1 ic.2)
        (fun r => scoreGtB r.score thr04)
      simp only [candidatesFiltered, candidatesAll, List.flatMap_cons,
        List.filter_append] at ih ⊢
      rw [hhead, ih]

theorem candidatesAll_length (q : List ℚ) (ms : ManualMap) :
    (candidatesAll q ms).length = (storeChunks ms).length := by
  induction ms with
  | nil => rfl
  | cons p ms ih =>
      simp only [candidatesAll, storeChunks, List.flatMap_cons,
        List.length_append] at ih ⊢
      simp [ih]

theorem mem_candidatesAll_score (q : List ℚ) (ms : ManualMap) (r : SearchR)
    (hr : r ∈ candidatesAll q ms) :
    ∃ p ∈ ms, ∃ c ∈ p.2.embeddings, r.score = cosineScore q c.vector := by
  simp only [candidatesAll, List.mem_flatMap] at hr
  obtain ⟨p, hp, hr2⟩ := hr
  simp only [List.mem_map] at hr2
  obtain ⟨ic, hic, hre⟩ := hr2
  refine ⟨p, hp, ic.2, ?_, ?_⟩
  · have hm := List.enum_map_snd p.2.embeddings
    rw [← hm]
    exact List.mem_map_of_mem Prod.snd hic
  · rw [← hre]
    rfl

theorem WF_mem_score (q : List ℚ) (ms : ManualMap) (hwf : WFStore q ms)
    (r : SearchR) (hr : r ∈ candidatesAll q ms) :
    ∃ v : Int × ℚ, r.score = some v ∧ ScoreCanon r.score := by
  obtain ⟨p, hp, ch, hch, hs⟩ := mem_candidatesAll_score q ms r hr
  obtain ⟨hq, hall⟩ := hwf
  obtain ⟨hdim, hcv⟩ := hall p hp ch hch
  have hlen : ¬ ch.vector.length < q.length := not_lt.mpr (le_of_eq hdim.symm)
  have htake : ch.vector.take q.length = ch.vector :=
    List.take_of_length_le (le_of_eq hdim)
  have hnb : dotQ (ch.vector.take q.length) (ch.vector.take q.length) ≠ 0 := by
    rw [htake]; exact hcv
  rw [hs]
  exact ⟨_, cosineScore_eq_some q ch.vector hlen hq hnb,
    cosineScore_canon q ch.vector⟩

theorem scoreGtB_thr04_iff (x : Option (Int × ℚ)) (v : Int × ℚ)
    (hx : x = some v) (hc : ScoreCanon x) :
    (scoreGtB x thr04 = true ↔ (2 : ℝ) / 5 < scoreReal x) := by
  subst hx
  obtain ⟨s, q⟩ := v
  rw [← scoreReal_thr04]
  exact scoreGtB_real s 1 q (4 / 25) hc thr04_canon

theorem survivors_subset (q : List ℚ) (ms : ManualMap) (r : SearchR)
    (hr : r ∈ (if (candidatesFiltered q ms).length = 0
      then candidatesAll q ms else candidatesFiltered q ms)) :
    r ∈ candidatesAll q ms := by
  by_cases h : (candidatesFiltered q ms).length = 0
  · rw [if_pos h] at hr; exact hr
  · rw [if_neg h] at hr
    rw [candidatesFiltered_eq] at hr
    exact List.mem_of_mem_filter hr

theorem storeChunks_manuals_len {ms : ManualMap} (h : storeChunks ms ≠ []) :
    ¬ ms.length = 0 := by
  intro hlen
  have hnil : ms = [] := List.length_eq_zero.mp hlen
  subst hnil
  exact h rfl

/-- C1: the first scan collects exactly the chunks whose score passes the
`> 0.4` comparison (and, on a well-formed store, that comparison holds
precisely when the real cosine of the chunk against the query exceeds 2/5);
if no chunk passes, the unfiltered scan is used instead; the result is the
sorted truncation of whichever candidate set survived, and it is non-empty
whenever at least one chunk is stored and at least one result is
requested. -/
theorem C1_threshold_fallback (q : List ℚ) (c : Cache) (ms : ManualMap)
    (topK : ℕ) (hm : c.manuals = some ms) (hne : storeChunks ms ≠ [])
    (hk : 0 < topK) :
    candidatesFiltered q ms
        = (candidatesAll q ms).filter (fun r => scoreGtB r.score thr04) ∧
    (WFStore q ms → ∀ p ∈ ms, ∀ ch ∈ p.2.embeddings,
      (scoreGtB (cosineScore q ch.vector) thr04 = true
        ↔ (2 : ℝ) / 5 < cosineR q ch.vector)) ∧
    similaritySearch q c topK
      = (sortDesc (if (candidatesFiltered q ms).length = 0
          then candidatesAll q ms else candidatesFiltered q ms)).take topK ∧
    similaritySearch q c topK ≠ [] := by
  have h0 : ¬ ms.length = 0 := storeChunks_manuals_len hne
  have hstruct : similaritySearch q c topK
      = (sortDesc (if (candidatesFiltered q ms).length = 0
          then candidatesAll q ms else candidatesFiltered q ms)).take topK := by
    simp only [similaritySearch, hm]
    rw [if_neg h0]
  refine ⟨candidatesFiltered_eq q ms, ?_, hstruct, ?_⟩
  · intro hwf p hp ch hch
    obtain ⟨hq, hall⟩ := hwf
    obtain ⟨hdim, hcv⟩ := hall p hp ch hch
    have hlen : ¬ ch.vector.length < q.length :=
      not_lt.mpr (le_of_eq hdim.symm)
    have htake : ch.vector.take q.length = ch.vector :=
      List.take_of_length_le (le_of_eq hdim)
    have hnb : dotQ (ch.vector.take q.length) (ch.vector.take q.length)
        ≠ 0 := by
      rw [htake]; exact hcv
    have hiff := scoreGtB_thr04_iff (cosineScore q ch.vector) _
      (cosineScore_eq_some q ch.vector hlen hq hnb)
      (cosineScore_canon q ch.vector)
    rw [cosineScore_real q ch.vector hlen hq hnb] at hiff
    exact hiff
  · rw [hstruct]
    have hlen : 0 < (if (candidatesFiltered q ms).length = 0
        then candidatesAll q ms else candidatesFiltered q ms).length := by
      by_cases hf : (candidatesFiltered q ms).length = 0
      · rw [if_pos hf, candidatesAll_length]
        exact List.length_pos.mpr hne
      · rw [if_neg hf]
        omega
    have hsort : (sortDesc (if (candidatesFiltered q ms).length = 0
        then candidatesAll q ms else candidatesFiltered q ms)).length
        = (if (candidatesFiltered q ms).length = 0
          then candidatesAll q ms else candidatesFiltered q ms).length :=
      (sortDesc_perm _).length_eq
    intro hnil
    have hz : ((sortDesc (if (candidatesFiltered q ms).length = 0
        then candidatesAll q ms
        else candidatesFiltered q ms)).take topK).length = 0 := by
      rw [hnil]; rfl
    rw [List.length_take] at hz
    omega

/-- C1, witness: the search on a one-chunk store with four requested results
returns a non-empty sequence. -/
theorem C1_threshold_fallback_witness :
    similaritySearch [1, 0] mismatchCache 4 ≠ [] :=
  (C1_threshold_fallback [1, 0] mismatchCache
    [("m1", ⟨[⟨"chunk-0", "texto", [1, 0, 0]⟩], dummyInfo⟩)] 4 rfl
    (by decide) (by decide)).2.2.2

theorem wfStore_concrete :
    WFStore [1, 0]
      [("m1", ⟨[⟨"chunk-0", "uno", [1, 0]⟩, ⟨"chunk-1", "dos", [0, 1]⟩],
        dummyInfo⟩),
       ("m2", ⟨[⟨"chunk-0", "tres", [-1, 0]⟩], dummyInfo⟩)] := by
  constructor
  · norm_num [dotQ]
  · intro p hp c hc
    rcases List.mem_cons.mp hp with rfl | hp'
    · rcases List.mem_cons.mp hc with rfl | hc'
      · exact ⟨by decide, by norm_num [dotQ]⟩
      · rcases List.mem_cons.mp hc' with rfl | hc''
        · exact ⟨by decide, by norm_num [dotQ]⟩
        · exact absurd hc'' (List.not_mem_nil c)
    · rcases List.mem_cons.mp hp' with rfl | hp''
      · rcases List.mem_cons.mp hc with rfl | hc'
        · exact ⟨by decide, by norm_num [dotQ]⟩
        · exact absurd hc' (List.not_mem_nil c)
      · exact absurd hp'' (List.not_mem_nil p)

/-- C2: the search result has length at most `topK`; on a well-formed store
it is sorted by weakly decreasing real score; it is the truncation to `topK`
of the stable descending sort of the surviving candidate scan; and the sort
is a stable permutation — it permutes its input and, for every score value,
lists the candidates having that score in their original scan order. -/
theorem C2_topk_sorted_stable (q : List ℚ) (c : Cache) (topK : ℕ) :
    (similaritySearch q c topK).length ≤ topK ∧
    (∀ ms, c.manuals = some ms → WFStore q ms →
      (similaritySearch q c topK).Pairwise
        (fun a b => scoreReal b.score ≤ scoreReal a.score)) ∧
    (∀ ms, c.manuals = some ms → ¬ ms.length = 0 →
      similaritySearch q c topK
        = (sortDesc (if (candidatesFiltered q ms).length = 0
            then candidatesAll q ms else candidatesFiltered q ms)).take
              topK) ∧
    (∀ l : List SearchR, (sortDesc l).Perm l ∧
      ∀ s : Option (Int × ℚ),
        (sortDesc l).filter (fun r => decide (r.score = s))
          = l.filter (fun r => decide (r.score = s))) := by
  refine ⟨?_, ?_, ?_,
    fun l => ⟨sortDesc_perm l, fun s => sortDesc_filter_score l s⟩⟩
  · cases hm : c.manuals with
    | none => simp [similaritySearch, hm]
    | some ms =>
        by_cases h0 : ms.length = 0
        · simp [similaritySearch, hm, h0]
        · simp only [similaritySearch, hm]
          rw [if_neg h0, List.length_take]
          omega
  · intro ms hm hwf
    by_cases h0 : ms.length = 0
    · simp [similaritySearch, hm, h0]
    · have hstruct : similaritySearch q c topK
          = (sortDesc (if (candidatesFiltered q ms).length = 0
              then candidatesAll q ms
              else candidatesFiltered q ms)).take topK := by
        simp only [similaritySearch, hm]
        rw [if_neg h0]
      rw [hstruct]
      have hpw2 : (sortDesc (if (candidatesFiltered q ms).length = 0
          then candidatesAll q ms else candidatesFiltered q ms)).Pairwise
          (fun a b => scoreReal b.score ≤ scoreReal a.score) := by
        refine List.Pairwise.imp_of_mem ?_ (sortDesc_pairwise _)
        intro a b ha hb hab
        have ha' := survivors_subset q ms a ((sortDesc_perm _).mem_iff.mp ha)
        have hb' := survivors_subset q ms b ((sortDesc_perm _).mem_iff.mp hb)
        obtain ⟨va, hva, hca⟩ := WF_mem_score q ms hwf a ha'
        obtain ⟨vb, hvb, hcb⟩ := WF_mem_score q ms hwf b hb'
        rw [← not_lt]
        intro hlt
        obtain ⟨sa, qa⟩ := va
        obtain ⟨sb, qb⟩ := vb
        rw [hva] at hca
        rw [hvb] at hcb
        rw [hva, hvb] at hlt
        have hgt : scoreGtB b.score a.score = true := by
          rw [hvb, hva]
          exact (scoreGtB_real sb sa qb qa hcb hca).mpr hlt
        rw [hab] at hgt
        exact Bool.false_ne_true hgt
      exact List.Pairwise.sublist (List.take_sublist topK _) hpw2
  · intro ms hm h0
    simp only [similaritySearch, hm]
    rw [if_neg h0]

/-- C2, witness: the search on a well-formed three-chunk store is sorted by
weakly decreasing real score. -/
theorem C2_topk_sorted_stable_witness :
    (similaritySearch [1, 0] wfCache 4).Pairwise
      (fun a b => scoreReal b.score ≤ scoreReal a.score) :=
  (C2_topk_sorted_stable [1, 0] wfCache 4).2.1 _ rfl wfStore_concrete
